import Mathlib

/-!
Shallow embedding of the `pointers` crate (src/pointers/src/cell.rs and
src/pointers/src/rc.rs): a single-threaded interior-mutability container
`Cell<T>` and a non-atomic reference-counted pointer `Rc<T>` built on it.

Modelling choices:
* `Cell<T>` is state-passing: `set` returns the cell after the write, and
  `get` returns the read value together with the cell after the call (the
  source performs no write in `get`, so that cell is the receiver itself).
* `usize` refcounts are modelled as `Nat`: the counter is only ever written
  as `c + 1` by this code, and each live handle occupies distinct memory, so
  a wrap of the machine word is unreachable in any executable program.
* The allocation store is a heap: a list of allocation records (the index is
  the address) plus the multiset of addresses held by live `Rc` handles.
  `frees` counts deallocation events of a record; the contained value's
  teardown runs exactly when the record is deallocated, so `frees` also
  counts teardowns of the contained `T`.
* `Drop for Rc<T>` is embedded exactly as written in the source, including
  the write `refcount.set(c + 1)` in the branch where `c != 1`
  (src/pointers/src/rc.rs line 69).
-/

/-- Embeds `Cell<T>` from src/pointers/src/cell.rs: a single value slot. -/
structure Cell (T : Type) where
  value : T
deriving Repr, DecidableEq

namespace Cell

/-- `Cell::new(value)`: wraps the value. -/
def new (value : T) : Cell T :=
  ⟨value⟩

/-- `Cell::set(&self, value)`: replaces the stored value
(`*self.value.get() = value`). State-passing: returns the cell after. -/
def set (_self : Cell T) (value : T) : Cell T :=
  ⟨value⟩

/-- `Cell::get(&self) -> T`: copies the stored value out
(`*self.value.get()`). Returns the copy and the cell after the call; the
source performs no write here, so the cell after is the receiver. -/
def get (self : Cell T) : T × Cell T :=
  (self.value, self)

end Cell

/-- Embeds `RcInner<T>` from src/pointers/src/rc.rs: the owned value plus a
`Cell<usize>` refcount. -/
structure RcInner (T : Type) where
  value : T
  refcount : Cell Nat
deriving Repr, DecidableEq

namespace RcInner

/-- Embeds the body of `Clone for Rc<T>` (rc.rs lines 39-44) as it acts on
the shared `RcInner`: read the count, store count + 1. -/
def cloneUpdate (inner : RcInner T) : RcInner T :=
  let p := inner.refcount.get
  { inner with refcount := p.2.set (p.1 + 1) }

/-- Embeds the body of `Drop for Rc<T>` (rc.rs lines 57-70) as it acts on
the shared `RcInner`: read the count; if it is 1 the allocation is
deallocated (`none`); otherwise the source stores count + 1 (rc.rs line 69,
literally `inner.refcount.set(c + 1)`). -/
def dropUpdate (inner : RcInner T) : Option (RcInner T) :=
  let p := inner.refcount.get
  if p.1 = 1 then none
  else some { inner with refcount := p.2.set (p.1 + 1) }

/-- Embeds `Deref for Rc<T>` (rc.rs lines 48-53): `&self.inner.as_ref().value`. -/
def deref (inner : RcInner T) : T :=
  inner.value

end RcInner

/-- One heap record: the `RcInner` contents, whether the `Box` allocation is
still live, and how many deallocation events (hence teardowns of the
contained value) have happened to it. -/
structure Alloc (T : Type) where
  live : Bool
  inner : RcInner T
  frees : Nat
deriving Repr, DecidableEq

/-- The program heap: every `RcInner` record ever allocated (index =
address), and the addresses held by the live `Rc` handles. -/
structure Heap (T : Type) where
  allocs : List (Alloc T)
  handles : List Nat
deriving Repr, DecidableEq

/-- The operations client code can perform on `Rc<T>`: `Rc::new(v)`,
`.clone()` on a live handle holding address `a`, and dropping a live handle
holding address `a`. -/
inductive RcOp (T : Type) where
  | new : T → RcOp T
  | clone : Nat → RcOp T
  | drop : Nat → RcOp T
deriving Repr, DecidableEq

namespace Heap

/-- The empty heap: no allocations, no handles. -/
def empty (T : Type) : Heap T :=
  ⟨[], []⟩

/-- One operation on the heap, embedding `Rc::new`, `Clone for Rc` and
`Drop for Rc` from src/pointers/src/rc.rs. `new` allocates one fresh record
with refcount 1 and hands out one handle to it; `clone`/`drop` act through a
handle holding address `a` (guarded by `valid`; if `a` is out of range the
heap is returned unchanged, a case `valid` never reaches). -/
def step (s : Heap T) : RcOp T → Heap T
  | .new v =>
      ⟨s.allocs.concat ⟨true, ⟨v, Cell.new 1⟩, 0⟩, s.handles.concat s.allocs.length⟩
  | .clone a =>
      match s.allocs[a]? with
      | some A => ⟨s.allocs.set a { A with inner := A.inner.cloneUpdate }, s.handles.concat a⟩
      | none => s
  | .drop a =>
      match s.allocs[a]? with
      | some A =>
          match A.inner.dropUpdate with
          | none => ⟨s.allocs.set a { A with live := false, frees := A.frees + 1 }, s.handles.erase a⟩
          | some inner2 => ⟨s.allocs.set a { A with inner := inner2 }, s.handles.erase a⟩
      | none => s

/-- Run a sequence of operations. -/
def run (s : Heap T) : List (RcOp T) → Heap T
  | [] => s
  | op :: ops => (s.step op).run ops

/-- A sequence of operations is valid when every `clone`/`drop` is performed
through an address actually held by a live handle at that point (`new` is
always allowed). This is exactly the precondition Rust enforces: the methods
are only callable on a live `Rc` handle. -/
def valid (s : Heap T) : List (RcOp T) → Bool
  | [] => true
  | op :: ops =>
      (match op with
       | .new _ => true
       | .clone a => s.handles.contains a
       | .drop a => s.handles.contains a) && (s.step op).valid ops

end Heap

namespace Cell

/-- Folding a sequence of `set` calls over a cell leaves the value of the
last `set`, or the starting value when the sequence is empty. -/
theorem value_foldl_set (c : Cell T) (vs : List T) :
    (vs.foldl Cell.set c).value = vs.getLastD c.value := by
  induction vs generalizing c with
  | nil => rfl
  | cons v vs ih =>
    rw [List.foldl_cons, List.getLastD_cons]
    exact ih (Cell.set c v)

end Cell

/-- C6: after any sequence of `set` calls on a `Cell`, `get` returns exactly
the value passed to the most recent `set` (the initial value if there was
none), and the `get` call leaves the stored value unchanged. -/
theorem cell_get_after_sets (T : Type) (init : T) (vs : List T) :
    (Cell.get (vs.foldl Cell.set (Cell.new init))).1 = vs.getLastD init ∧
    (Cell.get (vs.foldl Cell.set (Cell.new init))).2 = vs.foldl Cell.set (Cell.new init) := by
  constructor
  · simpa [Cell.get, Cell.new] using Cell.value_foldl_set (Cell.new init) vs
  · rfl

/-- C7: `Rc::new(v)` allocates exactly one new `RcInner` record — the heap
grows by one record, every pre-existing record is untouched — holding `v`
with its refcount initialized to 1 (live, never deallocated), and hands out
exactly one handle, whose address is that of the new record. The operation
is total: it always succeeds. -/
theorem rc_new_allocates_one_record {T : Type} (s : Heap T) (v : T) :
    (s.step (RcOp.new v)).allocs.length = s.allocs.length + 1 ∧
    (s.step (RcOp.new v)).allocs[s.allocs.length]? = some ⟨true, ⟨v, Cell.new 1⟩, 0⟩ ∧
    (∀ b, b < s.allocs.length → (s.step (RcOp.new v)).allocs[b]? = s.allocs[b]?) ∧
    (s.step (RcOp.new v)).handles = s.handles.concat s.allocs.length := by
  refine ⟨by simp [Heap.step], ?_, ?_, rfl⟩
  · simp [Heap.step, List.concat_eq_append,
      List.getElem?_concat_length s.allocs ⟨true, ⟨v, Cell.new 1⟩, 0⟩]
  · intro b hb
    simp [Heap.step, List.concat_eq_append, List.getElem?_append, hb]

/-- C7 applied at a concrete input. -/
theorem rc_new_allocates_one_record_witness :
    ((Heap.empty Nat).step (RcOp.new 5)).allocs.length = (Heap.empty Nat).allocs.length + 1 ∧
    ((Heap.empty Nat).step (RcOp.new 5)).allocs[(Heap.empty Nat).allocs.length]? =
      some ⟨true, ⟨5, Cell.new 1⟩, 0⟩ ∧
    (∀ b, b < (Heap.empty Nat).allocs.length →
      ((Heap.empty Nat).step (RcOp.new 5)).allocs[b]? = (Heap.empty Nat).allocs[b]?) ∧
    ((Heap.empty Nat).step (RcOp.new 5)).handles =
      (Heap.empty Nat).handles.concat (Heap.empty Nat).allocs.length :=
  rc_new_allocates_one_record (Heap.empty Nat) 5

/-- C3: `clone` through a handle to allocation `a` reads the current count
`c` and stores exactly `c + 1` back into the same allocation, leaves the
contained value, liveness and free count of that allocation unchanged, does
not create or destroy any allocation (the heap length is unchanged), and
hands out one new handle whose address equals the original handle's. -/
theorem rc_clone_increments_count {T : Type} (s : Heap T) (a : Nat) (A : Alloc T)
    (hA : s.allocs[a]? = some A) :
    ∃ A2, (s.step (RcOp.clone a)).allocs[a]? = some A2 ∧
      A2.inner.refcount.value = A.inner.refcount.value + 1 ∧
      A2.inner.value = A.inner.value ∧
      A2.live = A.live ∧ A2.frees = A.frees ∧
      (s.step (RcOp.clone a)).allocs.length = s.allocs.length ∧
      (s.step (RcOp.clone a)).handles = s.handles.concat a := by
  have hlt : a < s.allocs.length := (List.getElem?_eq_some.mp hA).1
  refine ⟨{ A with inner := A.inner.cloneUpdate }, ?_, rfl, rfl, rfl, rfl, ?_, ?_⟩
  · simp [Heap.step, hA, List.getElem?_set_self hlt]
  · simp [Heap.step, hA]
  · simp [Heap.step, hA]

/-- C3 applied at a concrete input. -/
theorem rc_clone_increments_count_witness :
    ∃ A2, (((Heap.empty Nat).step (RcOp.new 5)).step (RcOp.clone 0)).allocs[0]? = some A2 ∧
      A2.inner.refcount.value = (⟨true, ⟨5, Cell.new 1⟩, 0⟩ : Alloc Nat).inner.refcount.value + 1 ∧
      A2.inner.value = (⟨true, ⟨5, Cell.new 1⟩, 0⟩ : Alloc Nat).inner.value ∧
      A2.live = (⟨true, ⟨5, Cell.new 1⟩, 0⟩ : Alloc Nat).live ∧
      A2.frees = (⟨true, ⟨5, Cell.new 1⟩, 0⟩ : Alloc Nat).frees ∧
      (((Heap.empty Nat).step (RcOp.new 5)).step (RcOp.clone 0)).allocs.length =
        ((Heap.empty Nat).step (RcOp.new 5)).allocs.length ∧
      (((Heap.empty Nat).step (RcOp.new 5)).step (RcOp.clone 0)).handles =
        ((Heap.empty Nat).step (RcOp.new 5)).handles.concat 0 :=
  rc_clone_increments_count ((Heap.empty Nat).step (RcOp.new 5)) 0 ⟨true, ⟨5, Cell.new 1⟩, 0⟩ (by decide)

/-- C9: `clone` is frame-preserving on everything but the refcount: after a
`clone` through any address `a`, every allocation still dereferences to the
exact value it held before, and no allocation's liveness or free count
changes — on the cloned allocation and on every other one alike. -/
theorem rc_clone_preserves_values {T : Type} (s : Heap T) (a b : Nat) (B : Alloc T)
    (hB : s.allocs[b]? = some B) :
    ∃ B2, (s.step (RcOp.clone a)).allocs[b]? = some B2 ∧
      RcInner.deref B2.inner = RcInner.deref B.inner ∧
      B2.live = B.live ∧ B2.frees = B.frees := by
  cases h : s.allocs[a]? with
  | none => exact ⟨B, by simp [Heap.step, h, hB], rfl, rfl, rfl⟩
  | some A =>
    by_cases hab : b = a
    · subst hab
      have hAB : A = B := by rw [h] at hB; exact (Option.some.inj hB)
      subst hAB
      have hlt : b < s.allocs.length := (List.getElem?_eq_some.mp hB).1
      exact ⟨{ A with inner := A.inner.cloneUpdate },
        by simp [Heap.step, h, List.getElem?_set_self hlt], rfl, rfl, rfl⟩
    · exact ⟨B, by simp [Heap.step, h, List.getElem?_set_ne (Ne.symm hab), hB], rfl, rfl, rfl⟩

/-- C9 applied at a concrete input. -/
theorem rc_clone_preserves_values_witness :
    ∃ B2, (((Heap.empty Nat).step (RcOp.new 5)).step (RcOp.clone 0)).allocs[0]? = some B2 ∧
      RcInner.deref B2.inner = RcInner.deref (⟨true, ⟨5, Cell.new 1⟩, 0⟩ : Alloc Nat).inner ∧
      B2.live = (⟨true, ⟨5, Cell.new 1⟩, 0⟩ : Alloc Nat).live ∧
      B2.frees = (⟨true, ⟨5, Cell.new 1⟩, 0⟩ : Alloc Nat).frees :=
  rc_clone_preserves_values ((Heap.empty Nat).step (RcOp.new 5)) 0 0
    ⟨true, ⟨5, Cell.new 1⟩, 0⟩ (by decide)

/-- C1 fails on the code: after `new(5)`, one `clone` (two handles, count 2)
and one `drop` (back to one live handle), the stored count is 3, not 1 — the
non-terminal branch of `Drop` writes `c + 1` (rc.rs line 69), so the count
does not equal the number of live handles. The trace is valid (every
operation goes through a live handle). -/
theorem rc_count_diverges_from_handles :
    Heap.valid (Heap.empty Nat) [RcOp.new 5, RcOp.clone 0, RcOp.drop 0] = true ∧
    (Heap.run (Heap.empty Nat) [RcOp.new 5, RcOp.clone 0, RcOp.drop 0]).handles = [0] ∧
    (Heap.run (Heap.empty Nat) [RcOp.new 5, RcOp.clone 0, RcOp.drop 0]).allocs[0]? =
      some ⟨true, ⟨5, Cell.new 3⟩, 0⟩ ∧
    (3 : Nat) ≠ 1 := by
  decide

/-- C2 fails on the code: dropping a handle while the stored count is 2
leaves the allocation intact but writes count 3 — `c + 1`, not the claimed
`c - 1 = 1` (rc.rs line 69). -/
theorem rc_drop_nonterminal_increments :
    RcInner.dropUpdate ⟨(5 : Nat), Cell.new 2⟩ = some ⟨5, Cell.new 3⟩ ∧
    (3 : Nat) ≠ 2 - 1 := by
  decide

/-- C4 fails on the code: in the valid trace `new(5)`, `clone`, `drop`,
`drop` every handle is dropped, yet the allocation is still live with zero
deallocations (and zero teardowns of the contained value) and its count
inflated to 4 — the allocation is leaked, never deallocated, because the
non-terminal drop incremented the count past 1. -/
theorem rc_leak_after_all_handles_dropped :
    Heap.valid (Heap.empty Nat) [RcOp.new 5, RcOp.clone 0, RcOp.drop 0, RcOp.drop 0] = true ∧
    (Heap.run (Heap.empty Nat) [RcOp.new 5, RcOp.clone 0, RcOp.drop 0, RcOp.drop 0]).handles = [] ∧
    (Heap.run (Heap.empty Nat) [RcOp.new 5, RcOp.clone 0, RcOp.drop 0, RcOp.drop 0]).allocs[0]? =
      some ⟨true, ⟨5, Cell.new 4⟩, 0⟩ := by
  decide

/-- C5 fails on the code: the scenario `new(5)` → `clone` → `clone` does
reach count 3, but the next drop sets the count to 4, not the claimed 2
(rc.rs line 69 writes `c + 1`). -/
theorem rc_scenario_diverges :
    (Heap.run (Heap.empty Nat) [RcOp.new 5, RcOp.clone 0, RcOp.clone 0]).allocs[0]? =
      some ⟨true, ⟨5, Cell.new 3⟩, 0⟩ ∧
    (Heap.run (Heap.empty Nat)
        [RcOp.new 5, RcOp.clone 0, RcOp.clone 0, RcOp.drop 0]).allocs[0]? =
      some ⟨true, ⟨5, Cell.new 4⟩, 0⟩ ∧
    (4 : Nat) ≠ 2 := by
  decide

namespace RcInner

/-- A non-terminal drop never changes the contained value. -/
theorem dropUpdate_value {T : Type} {inner inner2 : RcInner T}
    (h : inner.dropUpdate = some inner2) : inner2.value = inner.value := by
  by_cases hc : inner.refcount.value = 1
  · simp [RcInner.dropUpdate, Cell.get, hc] at h
  · simp [RcInner.dropUpdate, Cell.get, Cell.set, hc] at h
    rw [← h]

end RcInner

namespace Heap

/-- `List.count` over `concat`. -/
theorem count_concat_eq (a b : Nat) (l : List Nat) :
    List.count a (l.concat b) = List.count a l + if b = a then 1 else 0 := by
  simp [List.concat_eq_append, List.count_append, List.count_singleton]

/-- The heap invariant maintained by every valid operation sequence: every
live handle's address is a real allocation; the count stored in a record is
at least the number of live handles to it (with the source's increment bug
it can exceed it); a deallocated record has no handles left; and every
record has been deallocated exactly zero times while live, exactly once
after becoming dead — never twice (no double free). -/
structure Inv {T : Type} (s : Heap T) : Prop where
  handles_lt : ∀ a ∈ s.handles, a < s.allocs.length
  count_le : ∀ (a : Nat) (A : Alloc T),
    s.allocs[a]? = some A → List.count a s.handles ≤ A.inner.refcount.value
  dead_no_handles : ∀ (a : Nat) (A : Alloc T),
    s.allocs[a]? = some A → A.live = false → List.count a s.handles = 0
  frees_eq : ∀ (a : Nat) (A : Alloc T),
    s.allocs[a]? = some A → A.frees = if A.live then 0 else 1

/-- The empty heap satisfies the invariant. -/
theorem inv_empty (T : Type) : Inv (empty T) := by
  refine ⟨?_, ?_, ?_, ?_⟩
  · intro a ha; simp [empty] at ha
  · intro a A hA; simp [empty] at hA
  · intro a A hA; simp [empty] at hA
  · intro a A hA; simp [empty] at hA


/-- The allocation list after `Rc::new`. -/
theorem allocs_step_new {T : Type} (s : Heap T) (v : T) :
    (s.step (RcOp.new v)).allocs = s.allocs ++ [⟨true, ⟨v, Cell.new 1⟩, 0⟩] := by
  simp [step, List.concat_eq_append]

/-- The handle list after `Rc::new`. -/
theorem handles_step_new {T : Type} (s : Heap T) (v : T) :
    (s.step (RcOp.new v)).handles = s.handles ++ [s.allocs.length] := by
  simp [step, List.concat_eq_append]

/-- `Rc::new` preserves the invariant. -/
theorem inv_step_new {T : Type} {s : Heap T} (h : Inv s) (v : T) :
    Inv (s.step (RcOp.new v)) := by
  have hne : List.count s.allocs.length s.handles = 0 := by
    by_contra hne
    have hmem : s.allocs.length ∈ s.handles := List.count_pos_iff.mp (Nat.pos_of_ne_zero hne)
    exact absurd (h.handles_lt _ hmem) (lt_irrefl _)
  have hsplit : ∀ (a : Nat) (A : Alloc T), (s.step (RcOp.new v)).allocs[a]? = some A →
      (a < s.allocs.length ∧ s.allocs[a]? = some A) ∨
      (a = s.allocs.length ∧ A = ⟨true, ⟨v, Cell.new 1⟩, 0⟩) := by
    intro a A hA
    rw [allocs_step_new] at hA
    rcases Nat.lt_trichotomy a s.allocs.length with hlt | rfl | hgt
    · left
      exact ⟨hlt, by rw [List.getElem?_append] at hA; simpa [hlt] using hA⟩
    · right
      rw [List.getElem?_concat_length] at hA
      exact ⟨rfl, (Option.some.inj hA).symm⟩
    · exfalso
      rw [List.getElem?_append_right (Nat.le_of_lt hgt)] at hA
      have : [(⟨true, ⟨v, Cell.new 1⟩, 0⟩ : Alloc T)][a - s.allocs.length]? = none := by
        apply List.getElem?_eq_none
        simp
        omega
      rw [this] at hA
      exact Option.noConfusion hA
  have hcount_old : ∀ a : Nat, a < s.allocs.length →
      List.count a (s.step (RcOp.new v)).handles = List.count a s.handles := by
    intro a hlt
    rw [handles_step_new, List.count_append, List.count_singleton]
    simp [Nat.ne_of_gt hlt]
  refine ⟨?_, ?_, ?_, ?_⟩
  · intro a ha
    rw [handles_step_new] at ha
    rw [allocs_step_new]
    rcases List.mem_append.mp ha with h1 | h1
    · have := h.handles_lt a h1
      simp
      omega
    · simp at h1
      simp [h1]
  · intro a A hA
    rcases hsplit a A hA with ⟨hlt, hA'⟩ | ⟨rfl, rfl⟩
    · rw [hcount_old a hlt]
      exact h.count_le a A hA'
    · rw [handles_step_new, List.count_append, List.count_singleton, hne]
      simp [Cell.new]
  · intro a A hA hdead
    rcases hsplit a A hA with ⟨hlt, hA'⟩ | ⟨rfl, rfl⟩
    · rw [hcount_old a hlt]
      exact h.dead_no_handles a A hA' hdead
    · exact absurd hdead (by simp)
  · intro a A hA
    rcases hsplit a A hA with ⟨hlt, hA'⟩ | ⟨rfl, rfl⟩
    · exact h.frees_eq a A hA'
    · simp

/-- Reduced form of a `clone` step through address `a`. -/
theorem step_clone_eq {T : Type} {s : Heap T} {a : Nat} {A : Alloc T}
    (hA : s.allocs[a]? = some A) :
    s.step (RcOp.clone a) =
      ⟨s.allocs.set a { A with inner := A.inner.cloneUpdate }, s.handles.concat a⟩ := by
  simp [step, hA]

/-- Reduced form of a terminal `drop` step (count 1): the record is
deallocated; nothing is written to the count first. -/
theorem step_drop_terminal {T : Type} {s : Heap T} {a : Nat} {A : Alloc T}
    (hA : s.allocs[a]? = some A) (hc : A.inner.refcount.value = 1) :
    s.step (RcOp.drop a) =
      ⟨s.allocs.set a { A with live := false, frees := A.frees + 1 }, s.handles.erase a⟩ := by
  simp [step, hA, RcInner.dropUpdate, Cell.get, hc]

/-- Reduced form of a non-terminal `drop` step (count not 1): the source
writes count + 1 (rc.rs line 69). -/
theorem step_drop_nonterminal {T : Type} {s : Heap T} {a : Nat} {A : Alloc T}
    (hA : s.allocs[a]? = some A) (hc : A.inner.refcount.value ≠ 1) :
    s.step (RcOp.drop a) =
      ⟨s.allocs.set a
        { A with inner := { A.inner with refcount := Cell.new (A.inner.refcount.value + 1) } },
        s.handles.erase a⟩ := by
  simp [step, hA, RcInner.dropUpdate, Cell.get, Cell.set, Cell.new, hc]

/-- Under the invariant, a live handle's address is a live allocation. -/
theorem inv_handle_alloc {T : Type} {s : Heap T} (h : Inv s) {a : Nat} (ha : a ∈ s.handles) :
    ∃ A, s.allocs[a]? = some A ∧ A.live = true := by
  have hlt := h.handles_lt a ha
  refine ⟨s.allocs.get ⟨a, hlt⟩, by simp [List.getElem?_eq_getElem hlt], ?_⟩
  cases hl : (s.allocs.get ⟨a, hlt⟩).live with
  | true => rfl
  | false =>
    have hzero := h.dead_no_handles a _ (by simp [List.getElem?_eq_getElem hlt]) hl
    have hpos := List.count_pos_iff.mpr ha
    omega

/-- Indexing into a list after `set`. -/
theorem getElem?_set_split {α : Type} {l : List α} {a : Nat} (hlt : a < l.length)
    (x : α) (b : Nat) :
    (l.set a x)[b]? = if b = a then some x else l[b]? := by
  by_cases hb : b = a
  · subst hb
    simp [List.getElem?_set_self hlt]
  · rw [List.getElem?_set_ne (Ne.symm hb), if_neg hb]

/-- `Rc::clone` through a live handle preserves the invariant. -/
theorem inv_step_clone {T : Type} {s : Heap T} (h : Inv s) {a : Nat} (ha : a ∈ s.handles) :
    Inv (s.step (RcOp.clone a)) := by
  obtain ⟨A, hA, hlive⟩ := inv_handle_alloc h ha
  have hlt : a < s.allocs.length := (List.getElem?_eq_some.mp hA).1
  rw [step_clone_eq hA]
  refine ⟨?_, ?_, ?_, ?_⟩
  · intro b hb
    simp only [List.length_set]
    have hb2 : b ∈ s.handles ∨ b = a := by
      simpa [List.concat_eq_append] using hb
    rcases hb2 with h1 | rfl
    · exact h.handles_lt b h1
    · exact hlt
  · intro b B hB
    rw [show (⟨s.allocs.set a { A with inner := A.inner.cloneUpdate },
        s.handles.concat a⟩ : Heap T).allocs = s.allocs.set a { A with inner := A.inner.cloneUpdate }
        from rfl, getElem?_set_split hlt _ b] at hB
    rw [show (⟨s.allocs.set a { A with inner := A.inner.cloneUpdate },
        s.handles.concat a⟩ : Heap T).handles = s.handles.concat a from rfl, count_concat_eq]
    by_cases hb : b = a
    · subst hb
      rw [if_pos rfl] at hB
      rw [← Option.some.inj hB]
      have := h.count_le b A hA
      simp [RcInner.cloneUpdate, Cell.get, Cell.set]
      omega
    · rw [if_neg hb] at hB
      have := h.count_le b B hB
      simp [Ne.symm hb]
      omega
  · intro b B hB hdead
    rw [show (⟨s.allocs.set a { A with inner := A.inner.cloneUpdate },
        s.handles.concat a⟩ : Heap T).allocs = s.allocs.set a { A with inner := A.inner.cloneUpdate }
        from rfl, getElem?_set_split hlt _ b] at hB
    rw [show (⟨s.allocs.set a { A with inner := A.inner.cloneUpdate },
        s.handles.concat a⟩ : Heap T).handles = s.handles.concat a from rfl, count_concat_eq]
    by_cases hb : b = a
    · subst hb
      rw [if_pos rfl] at hB
      rw [← Option.some.inj hB] at hdead
      rw [show ({ A with inner := A.inner.cloneUpdate } : Alloc T).live = A.live from rfl,
        hlive] at hdead
      exact Bool.noConfusion hdead
    · rw [if_neg hb] at hB
      have := h.dead_no_handles b B hB hdead
      simp [Ne.symm hb]
      omega
  · intro b B hB
    rw [show (⟨s.allocs.set a { A with inner := A.inner.cloneUpdate },
        s.handles.concat a⟩ : Heap T).allocs = s.allocs.set a { A with inner := A.inner.cloneUpdate }
        from rfl, getElem?_set_split hlt _ b] at hB
    by_cases hb : b = a
    · subst hb
      rw [if_pos rfl] at hB
      rw [← Option.some.inj hB]
      exact h.frees_eq b A hA
    · rw [if_neg hb] at hB
      exact h.frees_eq b B hB

/-- Dropping a live handle preserves the invariant — in the terminal branch
because exactly one handle was left, in the non-terminal branch because the
count only moves up (the source's increment, rc.rs line 69). -/
theorem inv_step_drop {T : Type} {s : Heap T} (h : Inv s) {a : Nat} (ha : a ∈ s.handles) :
    Inv (s.step (RcOp.drop a)) := by
  obtain ⟨A, hA, hlive⟩ := inv_handle_alloc h ha
  have hlt : a < s.allocs.length := (List.getElem?_eq_some.mp hA).1
  have hcpos : 0 < List.count a s.handles := List.count_pos_iff.mpr ha
  have hcle := h.count_le a A hA
  by_cases hc : A.inner.refcount.value = 1
  · have hc1 : List.count a s.handles = 1 := by omega
    rw [step_drop_terminal hA hc]
    refine ⟨?_, ?_, ?_, ?_⟩
    · intro b hb
      simp only [List.length_set]
      exact h.handles_lt b (List.mem_of_mem_erase hb)
    · intro b B hB
      rw [show (⟨s.allocs.set a { A with live := false, frees := A.frees + 1 },
          s.handles.erase a⟩ : Heap T).allocs =
          s.allocs.set a { A with live := false, frees := A.frees + 1 } from rfl,
        getElem?_set_split hlt _ b] at hB
      by_cases hb : b = a
      · subst hb
        rw [show (⟨s.allocs.set b { A with live := false, frees := A.frees + 1 },
            s.handles.erase b⟩ : Heap T).handles = s.handles.erase b from rfl,
          List.count_erase_self, hc1]
        simp
      · rw [if_neg hb] at hB
        rw [show (⟨s.allocs.set a { A with live := false, frees := A.frees + 1 },
            s.handles.erase a⟩ : Heap T).handles = s.handles.erase a from rfl,
          List.count_erase_of_ne hb]
        exact h.count_le b B hB
    · intro b B hB hdead
      rw [show (⟨s.allocs.set a { A with live := false, frees := A.frees + 1 },
          s.handles.erase a⟩ : Heap T).allocs =
          s.allocs.set a { A with live := false, frees := A.frees + 1 } from rfl,
        getElem?_set_split hlt _ b] at hB
      by_cases hb : b = a
      · subst hb
        rw [show (⟨s.allocs.set b { A with live := false, frees := A.frees + 1 },
            s.handles.erase b⟩ : Heap T).handles = s.handles.erase b from rfl,
          List.count_erase_self, hc1]
      · rw [if_neg hb] at hB
        rw [show (⟨s.allocs.set a { A with live := false, frees := A.frees + 1 },
            s.handles.erase a⟩ : Heap T).handles = s.handles.erase a from rfl,
          List.count_erase_of_ne hb]
        exact h.dead_no_handles b B hB hdead
    · intro b B hB
      rw [show (⟨s.allocs.set a { A with live := false, frees := A.frees + 1 },
          s.handles.erase a⟩ : Heap T).allocs =
          s.allocs.set a { A with live := false, frees := A.frees + 1 } from rfl,
        getElem?_set_split hlt _ b] at hB
      by_cases hb : b = a
      · subst hb
        rw [if_pos rfl] at hB
        have hfr := h.frees_eq b A hA
        rw [hlive] at hfr
        simp only [if_pos rfl] at hfr
        rw [← Option.some.inj hB]
        simp [hfr]
      · rw [if_neg hb] at hB
        exact h.frees_eq b B hB
  · rw [step_drop_nonterminal hA hc]
    refine ⟨?_, ?_, ?_, ?_⟩
    · intro b hb
      simp only [List.length_set]
      exact h.handles_lt b (List.mem_of_mem_erase hb)
    · intro b B hB
      rw [show (⟨s.allocs.set a
          { A with inner := { A.inner with refcount := Cell.new (A.inner.refcount.value + 1) } },
          s.handles.erase a⟩ : Heap T).allocs = s.allocs.set a
          { A with inner := { A.inner with refcount := Cell.new (A.inner.refcount.value + 1) } }
          from rfl,
        getElem?_set_split hlt _ b] at hB
      by_cases hb : b = a
      · subst hb
        rw [if_pos rfl] at hB
        rw [show (⟨s.allocs.set b
            { A with inner := { A.inner with refcount := Cell.new (A.inner.refcount.value + 1) } },
            s.handles.erase b⟩ : Heap T).handles = s.handles.erase b from rfl,
          List.count_erase_self]
        rw [← Option.some.inj hB]
        simp [Cell.new]
        omega
      · rw [if_neg hb] at hB
        rw [show (⟨s.allocs.set a
            { A with inner := { A.inner with refcount := Cell.new (A.inner.refcount.value + 1) } },
            s.handles.erase a⟩ : Heap T).handles = s.handles.erase a from rfl,
          List.count_erase_of_ne hb]
        exact h.count_le b B hB
    · intro b B hB hdead
      rw [show (⟨s.allocs.set a
          { A with inner := { A.inner with refcount := Cell.new (A.inner.refcount.value + 1) } },
          s.handles.erase a⟩ : Heap T).allocs = s.allocs.set a
          { A with inner := { A.inner with refcount := Cell.new (A.inner.refcount.value + 1) } }
          from rfl,
        getElem?_set_split hlt _ b] at hB
      by_cases hb : b = a
      · subst hb
        rw [if_pos rfl] at hB
        rw [← Option.some.inj hB] at hdead
        rw [show ({ A with inner :=
            { A.inner with refcount := Cell.new (A.inner.refcount.value + 1) } } : Alloc T).live =
            A.live from rfl, hlive] at hdead
        exact Bool.noConfusion hdead
      · rw [if_neg hb] at hB
        rw [show (⟨s.allocs.set a
            { A with inner := { A.inner with refcount := Cell.new (A.inner.refcount.value + 1) } },
            s.handles.erase a⟩ : Heap T).handles = s.handles.erase a from rfl,
          List.count_erase_of_ne hb]
        exact h.dead_no_handles b B hB hdead
    · intro b B hB
      rw [show (⟨s.allocs.set a
          { A with inner := { A.inner with refcount := Cell.new (A.inner.refcount.value + 1) } },
          s.handles.erase a⟩ : Heap T).allocs = s.allocs.set a
          { A with inner := { A.inner with refcount := Cell.new (A.inner.refcount.value + 1) } }
          from rfl,
        getElem?_set_split hlt _ b] at hB
      by_cases hb : b = a
      · subst hb
        rw [if_pos rfl] at hB
        rw [← Option.some.inj hB]
        exact h.frees_eq b A hA
      · rw [if_neg hb] at hB
        exact h.frees_eq b B hB

/-- Every valid operation sequence preserves the invariant. -/
theorem inv_run {T : Type} {s : Heap T} (h : Inv s) {ops : List (RcOp T)}
    (hv : Heap.valid s ops = true) : Inv (Heap.run s ops) := by
  induction ops generalizing s with
  | nil => exact h
  | cons op ops ih =>
    simp only [Heap.valid, Bool.and_eq_true] at hv
    cases op with
    | new v => exact ih (inv_step_new h v) hv.2
    | clone a => exact ih (inv_step_clone h (by simpa using hv.1)) hv.2
    | drop a => exact ih (inv_step_drop h (by simpa using hv.1)) hv.2

end Heap

namespace Heap

/-- No single operation changes the contained value of any existing
allocation: `new` touches only fresh storage, `clone` and `drop` write only
the refcount (or the liveness bookkeeping of the freed record). -/
theorem value_preserved_step {T : Type} (s : Heap T) (op : RcOp T) (b : Nat) (B : Alloc T)
    (hB : s.allocs[b]? = some B) :
    ∃ B2, (s.step op).allocs[b]? = some B2 ∧ B2.inner.value = B.inner.value := by
  have hblt : b < s.allocs.length := (List.getElem?_eq_some.mp hB).1
  cases op with
  | new v =>
    refine ⟨B, ?_, rfl⟩
    rw [allocs_step_new, List.getElem?_append]
    simpa [hblt] using hB
  | clone a =>
    cases h : s.allocs[a]? with
    | none =>
      refine ⟨B, ?_, rfl⟩
      simp [step, h, hB]
    | some A =>
      have halt : a < s.allocs.length := (List.getElem?_eq_some.mp h).1
      rw [step_clone_eq h]
      rw [show (⟨s.allocs.set a { A with inner := A.inner.cloneUpdate },
          s.handles.concat a⟩ : Heap T).allocs =
          s.allocs.set a { A with inner := A.inner.cloneUpdate } from rfl]
      rw [getElem?_set_split halt]
      by_cases hb : b = a
      · subst hb
        rw [h] at hB
        rw [← Option.some.inj hB]
        exact ⟨{ A with inner := A.inner.cloneUpdate }, by rw [if_pos rfl], rfl⟩
      · exact ⟨B, by rw [if_neg hb]; exact hB, rfl⟩
  | drop a =>
    cases h : s.allocs[a]? with
    | none =>
      refine ⟨B, ?_, rfl⟩
      simp [step, h, hB]
    | some A =>
      have halt : a < s.allocs.length := (List.getElem?_eq_some.mp h).1
      by_cases hc : A.inner.refcount.value = 1
      · rw [step_drop_terminal h hc]
        rw [show (⟨s.allocs.set a { A with live := false, frees := A.frees + 1 },
            s.handles.erase a⟩ : Heap T).allocs =
            s.allocs.set a { A with live := false, frees := A.frees + 1 } from rfl]
        rw [getElem?_set_split halt]
        by_cases hb : b = a
        · subst hb
          rw [h] at hB
          rw [← Option.some.inj hB]
          exact ⟨{ A with live := false, frees := A.frees + 1 }, by rw [if_pos rfl], rfl⟩
        · exact ⟨B, by rw [if_neg hb]; exact hB, rfl⟩
      · rw [step_drop_nonterminal h hc]
        rw [show (⟨s.allocs.set a
            { A with inner := { A.inner with refcount := Cell.new (A.inner.refcount.value + 1) } },
            s.handles.erase a⟩ : Heap T).allocs = s.allocs.set a
            { A with inner := { A.inner with refcount := Cell.new (A.inner.refcount.value + 1) } }
            from rfl]
        rw [getElem?_set_split halt]
        by_cases hb : b = a
        · subst hb
          rw [h] at hB
          rw [← Option.some.inj hB]
          exact ⟨{ A with inner :=
            { A.inner with refcount := Cell.new (A.inner.refcount.value + 1) } },
            by rw [if_pos rfl], rfl⟩
        · exact ⟨B, by rw [if_neg hb]; exact hB, rfl⟩

/-- No operation sequence changes the contained value of an existing
allocation. -/
theorem value_preserved_run {T : Type} (s : Heap T) (ops : List (RcOp T)) (b : Nat)
    (B : Alloc T) (hB : s.allocs[b]? = some B) :
    ∃ B2, (Heap.run s ops).allocs[b]? = some B2 ∧ B2.inner.value = B.inner.value := by
  induction ops generalizing s B with
  | nil => exact ⟨B, hB, rfl⟩
  | cons op ops ih =>
    obtain ⟨B1, hB1, hv1⟩ := value_preserved_step s op b B hB
    obtain ⟨B2, hB2, hv2⟩ := ih (s.step op) B1 hB1
    exact ⟨B2, hB2, hv2.trans hv1⟩

end Heap

/-- C8: the allocation created by `Rc::new(v)` dereferences to exactly `v`
after any further sequence of operations on the heap — no operation of this
core (`new`, `clone`, `drop`, on this or any other allocation) mutates the
contained value, so every live handle always sees the value given at
construction. -/
theorem rc_deref_eq_constructed {T : Type} (s : Heap T) (v : T) (ops : List (RcOp T)) :
    ∃ A, (Heap.run (s.step (RcOp.new v)) ops).allocs[s.allocs.length]? = some A ∧
      RcInner.deref A.inner = v := by
  have h0 : (s.step (RcOp.new v)).allocs[s.allocs.length]? = some ⟨true, ⟨v, Cell.new 1⟩, 0⟩ := by
    rw [Heap.allocs_step_new]
    exact List.getElem?_concat_length s.allocs ⟨true, ⟨v, Cell.new 1⟩, 0⟩
  obtain ⟨A, hA, hval⟩ := Heap.value_preserved_run (s.step (RcOp.new v)) ops s.allocs.length _ h0
  exact ⟨A, hA, hval⟩

/-- C10: in every state reachable by a valid operation sequence, every
address still held by a live handle is a live (never yet deallocated)
allocation whose stored count is at least 1 — no drop ever writes 0 or
underflows the counter while handles remain; the terminal drop deallocates
without writing a decremented count first (`dropUpdate` returns `none`
without any `set`). -/
theorem rc_count_positive_while_handles_live {T : Type} (ops : List (RcOp T))
    (hv : Heap.valid (Heap.empty T) ops = true) (a : Nat)
    (ha : a ∈ (Heap.run (Heap.empty T) ops).handles) :
    ∃ A, (Heap.run (Heap.empty T) ops).allocs[a]? = some A ∧
      A.live = true ∧ 1 ≤ A.inner.refcount.value := by
  have hI : Heap.Inv (Heap.run (Heap.empty T) ops) :=
    Heap.inv_run (Heap.inv_empty T) hv
  obtain ⟨A, hA, hlive⟩ := Heap.inv_handle_alloc hI ha
  refine ⟨A, hA, hlive, ?_⟩
  have hcle := hI.count_le a A hA
  have hcpos := List.count_pos_iff.mpr ha
  omega

/-- C10 applied at a concrete input. -/
theorem rc_count_positive_while_handles_live_witness :
    ∃ A, (Heap.run (Heap.empty Nat) [RcOp.new 5, RcOp.clone 0, RcOp.drop 0]).allocs[0]? =
      some A ∧ A.live = true ∧ 1 ≤ A.inner.refcount.value :=
  rc_count_positive_while_handles_live [RcOp.new 5, RcOp.clone 0, RcOp.drop 0]
    (by decide) 0 (by decide)

/-- C6 applied at a concrete input. -/
theorem cell_get_after_sets_witness :
    (Cell.get ([20, 30].foldl Cell.set (Cell.new 10))).1 = [20, 30].getLastD 10 ∧
    (Cell.get ([20, 30].foldl Cell.set (Cell.new 10))).2 = [20, 30].foldl Cell.set (Cell.new 10) :=
  cell_get_after_sets Nat 10 [20, 30]

/-- C8 applied at a concrete input. -/
theorem rc_deref_eq_constructed_witness :
    ∃ A, (Heap.run ((Heap.empty Nat).step (RcOp.new 5))
        [RcOp.clone 0, RcOp.drop 0]).allocs[(Heap.empty Nat).allocs.length]? = some A ∧
      RcInner.deref A.inner = 5 :=
  rc_deref_eq_constructed (Heap.empty Nat) 5 [RcOp.clone 0, RcOp.drop 0]
